import Mathlib

/-!
Shallow embedding of the pymoo documentation examples: the knapsack
repair operator (`ConsiderMaximumWeightRepair._do`) and the BRKGA
permutation-discovery problem (`MyProblem._evaluate`,
`MyElementwiseDuplicateElimination.is_equal`), together with the
recorded per-generation reporter tables of the two documented runs.
Machine reals are embedded as `ℚ`, numpy boolean vectors as `List Bool`,
and the hidden numpy global random state as a stream `ℕ → ℕ` with a
cursor position.
-/

namespace Pymoo

/-- An individual: binary decision vector `X`, objective `F`, constraints
`G` and aggregate constraint violation `CV` (each absent until
evaluated). -/
structure Individual where
  X : List Bool
  F : Option ℚ
  G : Option (List ℚ)
  CV : Option ℚ
deriving DecidableEq

/-- The knapsack problem constants consumed by the repair operator:
capacity `C` and per-item weights `W`. -/
structure KnapsackProblem where
  C : ℚ
  W : List ℚ
deriving DecidableEq

/-- Embeds `np.where(z)[0]`: the indices of the currently selected
items of the packing plan `z`. -/
def npWhere (z : List Bool) : List ℕ :=
  (List.range z.length).filter (fun j => z.getD j false)

/-- Embeds `(z * W).sum()`: the weighted sum of the packing plan `z`
under the item weights `W` (elementwise product over aligned
positions). -/
def weightSum (W : List ℚ) (z : List Bool) : ℚ :=
  match z, W with
  | [], _ => 0
  | _ :: _, [] => 0
  | b :: zt, w :: Wt => (if b then w else 0) + weightSum Wt zt

/-- Number of selected items (true entries) of a packing plan. -/
def countTrue : List Bool → ℕ
  | [] => 0
  | b :: zt => (if b then 1 else 0) + countTrue zt

/-- Outcome of one individual's repair loop: normal exit carrying the
repaired plan and the advanced random-stream cursor, the error raised
by `np.random.choice` on an empty index set, or exhaustion of the
engine-imposed iteration cap (the spec's `RepairNonTermination`). -/
inductive RepairResult where
  | ok (z : List Bool) (pos : ℕ)
  | choiceEmpty
  | capExceeded
deriving DecidableEq

/-- Embeds the `while weights[i] > Q:` loop of
`ConsiderMaximumWeightRepair._do`: while the tracked weight `w` exceeds
the capacity `Q`, draw an index from the global stream `rand` at cursor
`pos`, pick that selected item uniformly among `np.where(z)[0]`, unset
it and decrement the tracked weight by its weight.  `fuel` is the
iteration budget; `.capExceeded` models the spec-mandated
`RepairNonTermination` raised when the budget is exhausted while the
violation still holds. -/
def repairLoop (W : List ℚ) (Q : ℚ) (rand : ℕ → ℕ) :
    ℕ → ℕ → List Bool → ℚ → RepairResult
  | 0, pos, z, w => if Q < w then .capExceeded else .ok z pos
  | fuel' + 1, pos, z, w =>
    if Q < w then
      if (npWhere z).length = 0 then .choiceEmpty
      else
        repairLoop W Q rand fuel' (pos + 1)
          (z.set ((npWhere z).getD (rand pos % (npWhere z).length) 0) false)
          (w - W.getD ((npWhere z).getD (rand pos % (npWhere z).length) 0) 0)
    else .ok z pos

/-- One individual's repair as the source performs it: the tracked
weight starts at the recomputed weighted sum, and the iteration budget
`countTrue z + 1` is enough for every behaviour the unbounded source
loop can exhibit (each iteration unsets one selected item). -/
def repairIndividual (W : List ℚ) (Q : ℚ) (rand : ℕ → ℕ)
    (pos : ℕ) (z : List Bool) : RepairResult :=
  repairLoop W Q rand (countTrue z + 1) pos z (weightSum W z)

/-- Embeds the `for i in range(len(Z))` loop of `_do`: repairs each
individual in order, threading the global random-stream cursor through
the whole population; only the `X` attribute of each individual is
rewritten.  `none` models an uncaught error (empty `np.random.choice`
or the modelled iteration cap). -/
def repairPop (W : List ℚ) (Q : ℚ) (rand : ℕ → ℕ) :
    ℕ → List Individual → Option (List Individual × ℕ)
  | pos, [] => some ([], pos)
  | pos, ind :: rest =>
    match repairIndividual W Q rand pos ind.X with
    | .ok z' pos' =>
      match repairPop W Q rand pos' rest with
      | some (rest', posEnd) => some ({ ind with X := z' } :: rest', posEnd)
      | none => none
    | _ => none

/-- The hidden numpy global random state: a stream of draws and the
current cursor into it.  `np.random.choice` inside the repair reads and
advances this state; it is not an argument of the operator call. -/
structure GlobalRandomState where
  stream : ℕ → ℕ
  pos : ℕ

/-- Embeds `ConsiderMaximumWeightRepair._do(problem, pop)`: the operator
receives only the problem and the population, and draws its random
choices from the ambient global state `g`. -/
def ConsiderMaximumWeightRepair_do (prob : KnapsackProblem)
    (g : GlobalRandomState) (pop : List Individual) :
    Option (List Individual) × GlobalRandomState :=
  match repairPop prob.W prob.C g.stream g.pos pop with
  | some (pop', pos') => (some pop', ⟨g.stream, pos'⟩)
  | none => (none, g)

/-- Modelled from the spec: `minimize(seed=...)` fixes the entire run's
random stream by seeding the pseudorandom source (pymoo's engine, not
under `src/`, seeds the numpy global state).  A simple LCG stands in
for numpy's generator. -/
def npSeedStream (seed : ℕ) : ℕ → ℕ :=
  fun k => (1103515245 * (seed + k) + 12345) % 2147483648

/-- Modelled from the spec: seeding replaces the ambient global random
state with the stream determined by the seed, cursor reset to 0. -/
def npRandomSeed (seed : ℕ) : GlobalRandomState :=
  ⟨npSeedStream seed, 0⟩

/-- Modelled from the spec: the repair stage of a `minimize` run with a
fixed seed — the engine first seeds the global random source, then the
stochastic operator draws from it.  The prior ambient global state `g`
is discarded by the seeding. -/
def minimizeRepairModel (seed : ℕ) (prob : KnapsackProblem)
    (pop : List Individual) (g : GlobalRandomState) :
    Option (List Individual) × GlobalRandomState :=
  let g1 := npRandomSeed seed
  let _g0 := g
  ConsiderMaximumWeightRepair_do prob g1 pop

/-! BRKGA permutation-discovery problem (brkga.ipynb). -/

/-- Insert index `i` into an index list sorted by the key values `v`,
keeping `i` before every index of strictly larger key and before
indices of equal key (stability of `np.argsort`). -/
def insertIdx (v : ℕ → ℚ) (i : ℕ) : List ℕ → List ℕ
  | [] => [i]
  | j :: js => if v i ≤ v j then i :: j :: js else j :: insertIdx v i js

/-- Stable insertion sort of an index list by key values. -/
def sortIdx (v : ℕ → ℚ) : List ℕ → List ℕ
  | [] => []
  | i :: is => insertIdx v i (sortIdx v is)

/-- Embeds `np.argsort(x)`: the indices `0..n-1` reordered so that the
corresponding entries of `x` are ascending (stable on ties). -/
def argsortQ (xs : List ℚ) : List ℕ :=
  sortIdx (fun i => xs.getD i 0) (List.range xs.length)

/-- Embeds `(self.correct == pheno).sum()`: the number of positions at
which the two index vectors agree. -/
def countMatches (correct pheno : List ℕ) : ℕ :=
  ((correct.zip pheno).filter (fun p => p.1 == p.2)).length

/-- Embeds `MyProblem._evaluate`'s objective: `out["F"] = -(self.correct
== pheno).sum()` with `pheno = np.argsort(x)` and `self.correct =
np.argsort(my_list)`. -/
def myProblemF (correct : List ℕ) (x : List ℚ) : ℤ :=
  -(countMatches correct (argsortQ x) : ℤ)

/-- Models Python's `hash(str(pheno))` from `MyProblem._evaluate`: an
(unspecified, deterministic) function of the decoded phenotype alone;
a concrete polynomial string hash stands in for it. -/
def phenoHash (pheno : List ℕ) : ℕ :=
  pheno.foldl (fun h a => h * 1000003 + a + 1) 7

/-- A random-key individual as evaluated by `MyProblem._evaluate`: the
raw key vector `X`, the objective `F`, and the attached auxiliary
attributes `pheno` and `hash`. -/
structure RKIndividual where
  X : List ℚ
  F : ℤ
  pheno : List ℕ
  hashAttr : ℕ
deriving DecidableEq

/-- Evaluation of one random-key vector by `MyProblem._evaluate`:
decode `pheno = np.argsort(x)`, set `F`, attach `pheno` and the
phenotype hash. -/
def evalRK (correct : List ℕ) (x : List ℚ) : RKIndividual :=
  let p := argsortQ x
  ⟨x, myProblemF correct x, p, phenoHash p⟩

/-- Embeds `MyElementwiseDuplicateElimination.is_equal(a, b)`:
`a.get("hash")[0] == b.get("hash")[0]`. -/
def is_equal (a b : RKIndividual) : Bool :=
  a.hashAttr == b.hashAttr

/-! Recorded verbose reporter tables of the two documented knapsack
runs (30 items, population 200, 10 generations). -/

/-- One row of the verbose reporter table: generation index, cumulative
evaluation count, minimum and average constraint violation, and —
optional, `-` placeholder when absent — best and average feasible
objective. -/
structure ReportRow where
  gen : ℕ
  neval : ℕ
  cvmin : ℚ
  cvavg : ℚ
  fopt : Option ℚ
  favg : Option ℚ
deriving DecidableEq

/-- Transcribed verbose output of the documented knapsack run WITHOUT
the repair operator (part_000, first `minimize` call). -/
def runNoRepair : List ReportRow :=
  [⟨1, 200, 236, 518510 / 1000, none, none⟩,
   ⟨2, 400, 84, 379885 / 1000, none, none⟩,
   ⟨3, 600, 64, 277510 / 1000, none, none⟩,
   ⟨4, 800, 18, 193755 / 1000, none, none⟩,
   ⟨5, 1000, 0, 124215 / 1000, some (-340), some (-276250 / 1000)⟩,
   ⟨6, 1200, 0, 68260 / 1000, some (-456), some (-279042 / 1000)⟩,
   ⟨7, 1400, 0, 28455 / 1000, some (-491), some (-280613 / 1000)⟩,
   ⟨8, 1600, 0, 4920 / 1000, some (-502), some (-284581 / 1000)⟩,
   ⟨9, 1800, 0, 0, some (-502), some (-308510 / 1000)⟩,
   ⟨10, 2000, 0, 0, some (-568), some (-369350 / 1000)⟩]

/-- Transcribed verbose output of the documented knapsack run WITH
`ConsiderMaximumWeightRepair` (part_000, second `minimize` call). -/
def runWithRepair : List ReportRow :=
  [⟨1, 200, 128, 500570 / 1000, none, none⟩,
   ⟨2, 400, 98, 356070 / 1000, none, none⟩,
   ⟨3, 600, 0, 259780 / 1000, some (-291), some (-291000 / 1000)⟩,
   ⟨4, 800, 0, 182020 / 1000, some (-425), some (-336400 / 1000)⟩,
   ⟨5, 1000, 0, 119465 / 1000, some (-454), some (-335556 / 1000)⟩,
   ⟨6, 1200, 0, 66800 / 1000, some (-454), some (-295400 / 1000)⟩,
   ⟨7, 1400, 0, 28880 / 1000, some (-454), some (-290133 / 1000)⟩,
   ⟨8, 1600, 0, 4270 / 1000, some (-522), some (-280194 / 1000)⟩,
   ⟨9, 1800, 0, 0, some (-553), some (-310615 / 1000)⟩,
   ⟨10, 2000, 0, 0, some (-553), some (-359055 / 1000)⟩]

/-- The index (0-based) of the first generation whose minimum
constraint violation is zero, over a recorded table. -/
def firstFeasibleIdx (rows : List ReportRow) : ℕ :=
  rows.findIdx (fun r => r.cvmin == 0)

/-! Recorded artifacts of the documented BRKGA run (brkga.ipynb,
seed 1, 75 generations, `n_elites=200, n_offsprings=700,
n_mutants=100, bias=0.7`). -/

/-- Transcribed best decision vector `res.X` of the recorded BRKGA run
(printed to 8 decimal digits; embedded exactly as printed). -/
def brkgaResX : List ℚ :=
  [62512107 / 100000000, 210869 / 100000000, 73537788 / 100000000,
   60261201 / 100000000, 43045971 / 100000000, 38763854 / 100000000,
   19209895 / 100000000, 80429496 / 100000000, 35157945 / 100000000,
   25393386 / 100000000, 80567794 / 100000000, 73484463 / 100000000,
   10660141 / 100000000, 66239025 / 100000000, 15066890 / 100000000,
   92465587 / 100000000, 98896201 / 100000000, 63240497 / 100000000,
   94057641 / 100000000, 7739991 / 100000000]

/-- Transcribed decoded phenotype of the best individual
(`res.opt.get("pheno")[0]`, the `Solution` line of the recorded run). -/
def brkgaSolution : List ℕ :=
  [1, 19, 12, 14, 6, 9, 8, 5, 4, 3, 0, 17, 13, 11, 2, 7, 10, 15, 18, 16]

/-- Transcribed true sort order `np.argsort(list_to_sort)` of the
target list (the `Optimum` and `Sorted by` lines of the notebook). -/
def brkgaOptimum : List ℕ :=
  [1, 19, 12, 14, 6, 9, 8, 5, 4, 3, 0, 17, 13, 11, 2, 7, 10, 15, 18, 16]

/-- Transcribed recorded objective value `res.F` of the BRKGA run. -/
def brkgaResF : ℤ := -20

/-! Helper lemmas about the embedded operations. -/

theorem getD_mem_nat : ∀ (l : List ℕ) (k : ℕ), k < l.length → l.getD k 0 ∈ l := by
  intro l
  induction l with
  | nil => intro k hk; simp at hk
  | cons a t ih =>
    intro k hk
    cases k with
    | zero => simp
    | succ k' =>
      simp only [List.getD_cons_succ]
      exact List.mem_cons_of_mem _ (ih k' (by simpa using hk))

theorem mem_npWhere {z : List Bool} {j : ℕ} :
    j ∈ npWhere z ↔ j < z.length ∧ z.getD j false = true := by
  simp [npWhere, List.mem_filter, List.mem_range]

theorem npWhere_nil_all_false {z : List Bool} (h : npWhere z = []) :
    ∀ j, j < z.length → z.getD j false = false := by
  intro j hj
  by_contra hne
  have hmem : j ∈ npWhere z := mem_npWhere.mpr ⟨hj, by revert hne; cases z.getD j false <;> simp⟩
  rw [h] at hmem
  exact absurd hmem (List.not_mem_nil j)

theorem weightSum_eq_zero_of_all_false :
    ∀ (z : List Bool) (W : List ℚ), (∀ j, j < z.length → z.getD j false = false) →
      weightSum W z = 0 := by
  intro z
  induction z with
  | nil => intro W _; cases W <;> rfl
  | cons b zt ih =>
    intro W h
    have hb : b = false := h 0 (by simp)
    cases W with
    | nil => rfl
    | cons w Wt =>
      have ht : weightSum Wt zt = 0 :=
        ih Wt (fun j hj => h (j + 1) (by simpa using Nat.succ_lt_succ hj))
      simp [weightSum, hb, ht]

theorem countTrue_set_false :
    ∀ (z : List Bool) (j : ℕ), j < z.length → z.getD j false = true →
      countTrue (z.set j false) + 1 = countTrue z := by
  intro z
  induction z with
  | nil => intro j hj _; simp at hj
  | cons b zt ih =>
    intro j hj hb
    cases j with
    | zero =>
      simp only [List.getD_cons_zero] at hb
      simp [List.set, countTrue, hb, Nat.add_comm]
    | succ j' =>
      simp only [List.getD_cons_succ] at hb
      have := ih j' (by simpa using hj) hb
      simp only [List.set, countTrue]
      omega

theorem weightSum_set_false :
    ∀ (z : List Bool) (W : List ℚ) (j : ℕ), j < z.length → z.getD j false = true →
      weightSum W (z.set j false) = weightSum W z - W.getD j 0 := by
  intro z
  induction z with
  | nil => intro W j hj _; simp at hj
  | cons b zt ih =>
    intro W j hj hb
    cases j with
    | zero =>
      simp only [List.getD_cons_zero] at hb
      cases W with
      | nil => simp [List.set, weightSum]
      | cons w Wt => simp [List.set, weightSum, hb]
    | succ j' =>
      simp only [List.getD_cons_succ] at hb
      cases W with
      | nil => simp [List.set, weightSum]
      | cons w Wt =>
        have := ih Wt j' (by simpa using hj) hb
        simp only [List.set, weightSum, List.getD_cons_succ, this]
        ring

theorem set_false_getD_true :
    ∀ (z : List Bool) (i j : ℕ), (z.set i false).getD j false = true →
      z.getD j false = true := by
  intro z
  induction z with
  | nil => intro i j h; simp [List.set] at h
  | cons b zt ih =>
    intro i j h
    cases i with
    | zero =>
      cases j with
      | zero => simp [List.set] at h
      | succ j' => simpa [List.set] using h
    | succ i' =>
      cases j with
      | zero => simpa [List.set] using h
      | succ j' =>
        simp only [List.set, List.getD_cons_succ] at h ⊢
        exact ih i' j' h

theorem repairLoop_feasible (W : List ℚ) (Q : ℚ) (rand : ℕ → ℕ) (hQ : 0 ≤ Q) :
    ∀ (fuel : ℕ) (z : List Bool) (pos : ℕ), countTrue z < fuel →
      ∃ z' pos', repairLoop W Q rand fuel pos z (weightSum W z) = .ok z' pos' ∧
        weightSum W z' ≤ Q ∧ z'.length = z.length ∧
        ∀ j, z'.getD j false = true → z.getD j false = true := by
  intro fuel
  induction fuel with
  | zero => intro z pos h; exact absurd h (Nat.not_lt_zero _)
  | succ f ih =>
    intro z pos h
    by_cases hw : Q < weightSum W z
    · have hsel : npWhere z ≠ [] := by
        intro hnil
        have h0 : weightSum W z = 0 :=
          weightSum_eq_zero_of_all_false z W (npWhere_nil_all_false hnil)
        rw [h0] at hw
        exact absurd hw (not_lt.mpr hQ)
      have hlen : 0 < (npWhere z).length := List.length_pos.mpr hsel
      have hklt : rand pos % (npWhere z).length < (npWhere z).length := Nat.mod_lt _ hlen
      have hmem : (npWhere z).getD (rand pos % (npWhere z).length) 0 ∈ npWhere z :=
        getD_mem_nat _ _ hklt
      rw [mem_npWhere] at hmem
      obtain ⟨hjlt, hjtrue⟩ := hmem
      have hct : countTrue (z.set ((npWhere z).getD (rand pos % (npWhere z).length) 0) false) + 1
          = countTrue z := countTrue_set_false z _ hjlt hjtrue
      have hws : weightSum W (z.set ((npWhere z).getD (rand pos % (npWhere z).length) 0) false)
          = weightSum W z - W.getD ((npWhere z).getD (rand pos % (npWhere z).length) 0) 0 :=
        weightSum_set_false z W _ hjlt hjtrue
      obtain ⟨z', pos', heq, hle, hlen', hsub⟩ :=
        ih (z.set ((npWhere z).getD (rand pos % (npWhere z).length) 0) false) (pos + 1)
          (by omega)
      refine ⟨z', pos', ?_, hle, by rw [hlen']; exact z.length_set .., fun j hj =>
        set_false_getD_true z _ j (hsub j hj)⟩
      rw [repairLoop, if_pos hw, if_neg (by omega), ← hws]
      exact heq
    · exact ⟨z, pos, by rw [repairLoop, if_neg hw], not_lt.mp hw, rfl, fun _ hj => hj⟩

theorem repairLoop_subset (W : List ℚ) (Q : ℚ) (rand : ℕ → ℕ) :
    ∀ (fuel : ℕ) (z : List Bool) (pos : ℕ) (w : ℚ) (z' : List Bool) (pos' : ℕ),
      repairLoop W Q rand fuel pos z w = .ok z' pos' →
      ∀ j, z'.getD j false = true → z.getD j false = true := by
  intro fuel
  induction fuel with
  | zero =>
    intro z pos w z' pos' heq
    rw [repairLoop] at heq
    split at heq
    · exact absurd heq (by simp)
    · cases heq
      exact fun _ hj => hj
  | succ f ih =>
    intro z pos w z' pos' heq
    rw [repairLoop] at heq
    split at heq
    · split at heq
      · exact absurd heq (by simp)
      · exact fun j hj => set_false_getD_true z _ j (ih _ _ _ _ _ heq j hj)
    · cases heq
      exact fun _ hj => hj

theorem repairLoop_ne_capExceeded (W : List ℚ) (Q : ℚ) (rand : ℕ → ℕ) :
    ∀ (fuel : ℕ) (z : List Bool) (pos : ℕ) (w : ℚ), countTrue z < fuel →
      repairLoop W Q rand fuel pos z w ≠ .capExceeded := by
  intro fuel
  induction fuel with
  | zero => intro z pos w h; exact absurd h (Nat.not_lt_zero _)
  | succ f ih =>
    intro z pos w h
    rw [repairLoop]
    split
    · split
      · simp
      · rename_i hw hsel
        have hne : npWhere z ≠ [] := fun hnil => hsel (by rw [hnil]; rfl)
        have hlen : 0 < (npWhere z).length := List.length_pos.mpr hne
        have hklt : rand pos % (npWhere z).length < (npWhere z).length := Nat.mod_lt _ hlen
        have hmem : (npWhere z).getD (rand pos % (npWhere z).length) 0 ∈ npWhere z :=
          getD_mem_nat _ _ hklt
        rw [mem_npWhere] at hmem
        have hct := countTrue_set_false z _ hmem.1 hmem.2
        exact ih _ (pos + 1) _ (by omega)
    · simp

theorem repairIndividual_ok (W : List ℚ) (Q : ℚ) (rand : ℕ → ℕ) (hQ : 0 ≤ Q)
    (z : List Bool) (pos : ℕ) :
    ∃ z' pos', repairIndividual W Q rand pos z = .ok z' pos' ∧
      weightSum W z' ≤ Q ∧ z'.length = z.length ∧
      ∀ j, z'.getD j false = true → z.getD j false = true :=
  repairLoop_feasible W Q rand hQ (countTrue z + 1) z pos (Nat.lt_succ_self _)

theorem repairPop_ok (W : List ℚ) (Q : ℚ) (rand : ℕ → ℕ) (hQ : 0 ≤ Q) :
    ∀ (pop : List Individual) (pos : ℕ),
      ∃ pop' posEnd, repairPop W Q rand pos pop = some (pop', posEnd) ∧
        ∀ ind' ∈ pop', weightSum W ind'.X ≤ Q := by
  intro pop
  induction pop with
  | nil => exact fun pos => ⟨[], pos, rfl, by simp⟩
  | cons ind rest ih =>
    intro pos
    obtain ⟨z', pos', heq, hle, _, _⟩ := repairIndividual_ok W Q rand hQ ind.X pos
    obtain ⟨rest', posEnd, heqr, hall⟩ := ih pos'
    refine ⟨{ ind with X := z' } :: rest', posEnd, by simp only [repairPop, heq, heqr], ?_⟩
    intro ind' hmem
    rcases List.mem_cons.mp hmem with h | h
    · rw [h]; exact hle
    · exact hall ind' h

theorem repairPop_frame (W : List ℚ) (Q : ℚ) (rand : ℕ → ℕ) :
    ∀ (pop pop' : List Individual) (pos posEnd : ℕ),
      repairPop W Q rand pos pop = some (pop', posEnd) →
      List.Forall₂ (fun ind' ind =>
        ind'.F = ind.F ∧ ind'.G = ind.G ∧ ind'.CV = ind.CV) pop' pop := by
  intro pop
  induction pop with
  | nil =>
    intro pop' pos posEnd h
    rw [repairPop] at h
    cases h
    exact List.Forall₂.nil
  | cons ind rest ih =>
    intro pop' pos posEnd h
    rw [repairPop] at h
    cases heq : repairIndividual W Q rand pos ind.X with
    | ok z' pos' =>
      simp only [heq] at h
      cases heqr : repairPop W Q rand pos' rest with
      | some p =>
        rcases p with ⟨rest', pEnd⟩
        simp only [heqr] at h
        cases h
        exact List.Forall₂.cons ⟨rfl, rfl, rfl⟩ (ih rest' pos' _ heqr)
      | none =>
        simp only [heqr] at h
        exact Option.noConfusion h
    | choiceEmpty =>
      simp only [heq] at h
      exact Option.noConfusion h
    | capExceeded =>
      simp only [heq] at h
      exact Option.noConfusion h

theorem insertIdx_length (v : ℕ → ℚ) (i : ℕ) :
    ∀ l : List ℕ, (insertIdx v i l).length = l.length + 1 := by
  intro l
  induction l with
  | nil => rfl
  | cons j js ih =>
    rw [insertIdx]
    split
    · rfl
    · simp only [List.length_cons, ih]

theorem sortIdx_length (v : ℕ → ℚ) :
    ∀ l : List ℕ, (sortIdx v l).length = l.length := by
  intro l
  induction l with
  | nil => rfl
  | cons i is ih => rw [sortIdx, insertIdx_length, ih, List.length_cons]

theorem argsortQ_length (xs : List ℚ) : (argsortQ xs).length = xs.length := by
  rw [argsortQ, sortIdx_length, List.length_range]

theorem countMatches_nil_left (b : List ℕ) : countMatches [] b = 0 := rfl

theorem countMatches_nil_right (a : List ℕ) : countMatches a [] = 0 := by
  cases a <;> rfl

theorem countMatches_cons (x y : ℕ) (a b : List ℕ) :
    countMatches (x :: a) (y :: b) =
      (if x = y then 1 else 0) + countMatches a b := by
  rw [countMatches, countMatches, List.zip_cons_cons, List.filter_cons]
  split
  · rename_i h
    simp only [beq_iff_eq] at h
    simp [h, Nat.add_comm]
  · rename_i h
    simp only [beq_iff_eq] at h
    simp [h]

theorem countMatches_le (a : List ℕ) : ∀ b : List ℕ, countMatches a b ≤ a.length := by
  induction a with
  | nil => intro b; rw [countMatches_nil_left]; exact Nat.zero_le _
  | cons x a' ih =>
    intro b
    cases b with
    | nil => rw [countMatches_nil_right]; exact Nat.zero_le _
    | cons y b' =>
      rw [countMatches_cons, List.length_cons]
      have := ih b'
      split <;> omega

theorem countMatches_eq_length_iff (a : List ℕ) :
    ∀ b : List ℕ, a.length = b.length → (countMatches a b = a.length ↔ a = b) := by
  induction a with
  | nil =>
    intro b hb
    cases b with
    | nil => simp [countMatches_nil_left]
    | cons y b' => simp at hb
  | cons x a' ih =>
    intro b hb
    cases b with
    | nil => simp at hb
    | cons y b' =>
      rw [countMatches_cons, List.length_cons]
      have hlen : a'.length = b'.length := by simpa using hb
      have hle := countMatches_le a' b'
      constructor
      · intro h
        have hx : x = y := by by_contra hne; simp [hne] at h; omega
        have hc : countMatches a' b' = a'.length := by simp [hx] at h; omega
        rw [hx, (ih b' hlen).mp hc]
      · intro h
        cases h
        simp [(ih a' rfl).mpr rfl, Nat.add_comm]

/-! Claim theorems. -/

/-- Claim C1: for every population of binary decision vectors and every
knapsack problem with non-negative item weights and non-negative
capacity `Q = problem.C`, the repair operator's `_do` returns, and
every returned individual's weighted sum is at most `Q`. -/
theorem repair_do_restores_feasibility (prob : KnapsackProblem)
    (g : GlobalRandomState) (pop : List Individual)
    (hW : ∀ w ∈ prob.W, 0 ≤ w) (hQ : 0 ≤ prob.C) :
    ∃ pop' g', ConsiderMaximumWeightRepair_do prob g pop = (some pop', g') ∧
      ∀ ind' ∈ pop', weightSum prob.W ind'.X ≤ prob.C := by
  obtain ⟨pop', posEnd, heq, hall⟩ := repairPop_ok prob.W prob.C g.stream hQ pop g.pos
  exact ⟨pop', ⟨g.stream, posEnd⟩,
    by simp only [ConsiderMaximumWeightRepair_do, heq], hall⟩

/-- Witness for C1 at a concrete infeasible population: two items of
weights 4 and 3, capacity 4, one individual selecting both. -/
theorem repair_do_restores_feasibility_witness :
    ∃ pop' g',
      ConsiderMaximumWeightRepair_do ⟨4, [4, 3]⟩ ⟨fun _ => 0, 0⟩
        [⟨[true, true], none, none, none⟩] = (some pop', g') ∧
      ∀ ind' ∈ pop', weightSum [4, 3] ind'.X ≤ 4 :=
  repair_do_restores_feasibility ⟨4, [4, 3]⟩ ⟨fun _ => 0, 0⟩
    [⟨[true, true], none, none, none⟩]
    (by intro w hw; fin_cases hw <;> norm_num) (by norm_num)

/-- Claim C2 counterexample: with identical problem and population (all
the inputs the operator call receives), the repair operator produces
different outputs under two different ambient global random states —
its random item-removal choice is drawn from the hidden global numpy
state, not from a stream threaded through the operator call. -/
theorem repair_reads_hidden_global_state :
    (ConsiderMaximumWeightRepair_do ⟨4, [4, 3]⟩ ⟨fun _ => 0, 0⟩
        [⟨[true, true], none, none, none⟩]).1 ≠
    (ConsiderMaximumWeightRepair_do ⟨4, [4, 3]⟩ ⟨fun _ => 1, 0⟩
        [⟨[true, true], none, none, none⟩]).1 := by
  with_unfolding_all decide

/-- Claim C2 (amended): for a fixed seed, two runs with identical
problem and population produce identical results whatever the
pre-existing global random state, because `minimize` seeds the global
numpy stream at the start of the run; the repair's random draws come
from that seeded global stream. -/
theorem minimize_seeded_runs_identical (seed : ℕ) (prob : KnapsackProblem)
    (pop : List Individual) (g1 g2 : GlobalRandomState) :
    minimizeRepairModel seed prob pop g1 = minimizeRepairModel seed prob pop g2 := rfl

/-- Claim C3: the repair's removal loop always completes within the
generous budget `countTrue z + 1` (one iteration per selected item) —
the source-faithful `repairIndividual` never exhausts its cap — and in
general any budget exceeding the selected-item count is never
exhausted, while a run that is still infeasible when the budget hits
zero surfaces the modelled `RepairNonTermination` (`.capExceeded`)
instead of looping. -/
theorem repair_iteration_cap_and_raise (W : List ℚ) (Q : ℚ) (rand : ℕ → ℕ)
    (pos : ℕ) (z : List Bool) :
    repairIndividual W Q rand pos z ≠ .capExceeded ∧
    (∀ cap w, countTrue z < cap → repairLoop W Q rand cap pos z w ≠ .capExceeded) ∧
    (∀ w, Q < w → repairLoop W Q rand 0 pos z w = .capExceeded) := by
  refine ⟨?_, ?_, ?_⟩
  · exact repairLoop_ne_capExceeded W Q rand _ z pos _ (Nat.lt_succ_self _)
  · exact fun cap w h => repairLoop_ne_capExceeded W Q rand cap z pos w h
  · intro w hw
    rw [repairLoop, if_pos hw]

/-- Witness for C3: one selected item, cap 2 never exhausted; at cap 0
with the violation still holding, `RepairNonTermination` is raised. -/
theorem repair_iteration_cap_and_raise_witness :
    repairLoop [1] 0 (fun _ => 0) 2 0 [true] 3 ≠ .capExceeded ∧
    repairLoop [1] 0 (fun _ => 0) 0 0 [true] 3 = .capExceeded :=
  ⟨(repair_iteration_cap_and_raise [1] 0 (fun _ => 0) 0 [true]).2.1 2 3 (by decide),
   (repair_iteration_cap_and_raise [1] 0 (fun _ => 0) 0 [true]).2.2 3 (by norm_num)⟩

/-- Claim C8: whenever the repair `_do` returns a population, it has
the same cardinality as its input, and every individual keeps its `F`,
`G` and `CV` attributes — only the `X` attribute is rewritten. -/
theorem repair_do_same_cardinality_only_X (prob : KnapsackProblem)
    (g g' : GlobalRandomState) (pop pop' : List Individual)
    (h : ConsiderMaximumWeightRepair_do prob g pop = (some pop', g')) :
    pop'.length = pop.length ∧
    List.Forall₂ (fun ind' ind => ind'.F = ind.F ∧ ind'.G = ind.G ∧ ind'.CV = ind.CV)
      pop' pop := by
  rw [ConsiderMaximumWeightRepair_do] at h
  cases heq : repairPop prob.W prob.C g.stream g.pos pop with
  | some p =>
    rcases p with ⟨popr, posEnd⟩
    simp only [heq] at h
    have hp : popr = pop' := by
      have := congrArg Prod.fst h
      simpa using this
    have hf := repairPop_frame prob.W prob.C g.stream pop popr g.pos posEnd heq
    rw [hp] at hf
    exact ⟨hf.length_eq, hf⟩
  | none =>
    simp only [heq] at h
    exact absurd (congrArg Prod.fst h) (by simp)

/-- Witness for C8 at a concrete already-feasible population (one
individual, weight 2, capacity 5): the repair returns it with the same
cardinality and untouched `F`, `G`, `CV`. -/
theorem repair_do_same_cardinality_only_X_witness :
    ([⟨[true], some 1, some [2], some 0⟩] : List Individual).length =
      ([⟨[true], some 1, some [2], some 0⟩] : List Individual).length ∧
    List.Forall₂ (fun (ind' ind : Individual) =>
        ind'.F = ind.F ∧ ind'.G = ind.G ∧ ind'.CV = ind.CV)
      [⟨[true], some 1, some [2], some 0⟩]
      [⟨[true], some 1, some [2], some 0⟩] :=
  repair_do_same_cardinality_only_X ⟨5, [2]⟩ ⟨fun _ => 0, 0⟩ ⟨fun _ => 0, 0⟩
    [⟨[true], some 1, some [2], some 0⟩] [⟨[true], some 1, some [2], some 0⟩]
    (by with_unfolding_all rfl)

/-- Claim C9: the repair performs unit removals only — every item
unselected before repair stays unselected (bits change only from
selected to unselected) — and an individual whose weighted sum is
already within capacity is returned with its decision vector
unchanged. -/
theorem repair_unit_removals_only (W : List ℚ) (Q : ℚ) (rand : ℕ → ℕ)
    (pos : ℕ) (z : List Bool) :
    (∀ z' pos', repairIndividual W Q rand pos z = .ok z' pos' →
      ∀ j, z'.getD j false = true → z.getD j false = true) ∧
    (weightSum W z ≤ Q → repairIndividual W Q rand pos z = .ok z pos) := by
  constructor
  · intro z' pos' heq
    exact repairLoop_subset W Q rand _ z pos _ z' pos' heq
  · intro hle
    rw [repairIndividual, repairLoop, if_neg (not_lt.mpr hle)]

/-- Witness for C9: a feasible individual (weight 1, capacity 2) is
returned unchanged, and its bits are a subset of the input's. -/
theorem repair_unit_removals_only_witness :
    repairIndividual [1] 2 (fun _ => 0) 0 [true] = .ok [true] 0 ∧
    ∀ j, ([true] : List Bool).getD j false = true →
      ([true] : List Bool).getD j false = true :=
  ⟨(repair_unit_removals_only [1] 2 (fun _ => 0) 0 [true]).2
      (by with_unfolding_all decide),
   (repair_unit_removals_only [1] 2 (fun _ => 0) 0 [true]).1 [true] 0
      ((repair_unit_removals_only [1] 2 (fun _ => 0) 0 [true]).2
        (by with_unfolding_all decide))⟩

/-- Claim C4: in the recorded 30-item knapsack run with the
weight-capacity repair (population 200, binary sampling, HUX crossover,
bit-flip mutation, 10 generations), the per-generation minimum
constraint violation reaches exactly 0 at a generation at most 5
(namely generation 3) and is 0 at every later generation of the run. -/
theorem knapsack_run_cv_zero_by_gen5 :
    ∃ gfeas, 1 ≤ gfeas ∧ gfeas ≤ 5 ∧
      (∃ r ∈ runWithRepair, r.gen = gfeas ∧ r.cvmin = 0) ∧
      ∀ r ∈ runWithRepair, gfeas ≤ r.gen → r.cvmin = 0 := by
  refine ⟨3, by norm_num, by norm_num, ?_, ?_⟩ <;> with_unfolding_all decide

/-- Claim C5: in the recorded BRKGA run, the best-found individual's
decoded phenotype (`np.argsort` of its key vector) equals the true sort
order of the target list, and the objective value is exactly -20. -/
theorem brkga_run_full_match :
    brkgaSolution = brkgaOptimum ∧
    argsortQ brkgaResX = brkgaSolution ∧
    brkgaResF = -20 ∧
    myProblemF brkgaOptimum brkgaResX = brkgaResF := by
  refine ⟨rfl, ?_, rfl, ?_⟩ <;> with_unfolding_all decide

/-- Claim C6: for any two individuals evaluated by the random-key
permutation problem, `is_equal` returns true exactly when their
attached phenotype-hash attributes are equal; in particular, two
individuals whose (possibly different) key vectors decode to the same
phenotype are judged duplicates. -/
theorem is_equal_iff_hash_eq (correct : List ℕ) (xa xb : List ℚ) :
    (is_equal (evalRK correct xa) (evalRK correct xb) = true ↔
      (evalRK correct xa).hashAttr = (evalRK correct xb).hashAttr) ∧
    (argsortQ xa = argsortQ xb →
      is_equal (evalRK correct xa) (evalRK correct xb) = true) := by
  constructor
  · simp [is_equal]
  · intro h
    simp [is_equal, evalRK, h]

/-- Witness for C6: two different key vectors with the same decoded
phenotype are judged duplicates. -/
theorem is_equal_iff_hash_eq_witness :
    is_equal (evalRK [1, 0] [1 / 2, 1 / 4]) (evalRK [1, 0] [3 / 4, 1 / 4]) = true :=
  (is_equal_iff_hash_eq [1, 0] [1 / 2, 1 / 4] [3 / 4, 1 / 4]).2
    (by with_unfolding_all decide)

/-- Claim C7: in the recorded run's reporter table, the best and
average feasible objective columns are the absent placeholder in every
generation before the first generation with a feasible individual
(minimum constraint violation 0) and are numeric values from that
generation onward; presence coincides exactly with feasibility. -/
theorem reporter_placeholder_until_first_feasible :
    ∀ r ∈ runNoRepair,
      (r.fopt.isSome = true ↔ r.cvmin = 0) ∧
      (r.favg.isSome = true ↔ r.cvmin = 0) ∧
      (r.gen < firstFeasibleIdx runNoRepair + 1 → r.fopt = none ∧ r.favg = none) ∧
      (firstFeasibleIdx runNoRepair + 1 ≤ r.gen →
        r.fopt.isSome = true ∧ r.favg.isSome = true) := by
  with_unfolding_all decide

/-- Witness for C7 at the first recorded generation (infeasible,
placeholders shown). -/
theorem reporter_placeholder_until_first_feasible_witness :
    ((⟨1, 200, 236, 518510 / 1000, none, none⟩ : ReportRow).fopt.isSome = true ↔
      (⟨1, 200, 236, 518510 / 1000, none, none⟩ : ReportRow).cvmin = 0) ∧
    ((⟨1, 200, 236, 518510 / 1000, none, none⟩ : ReportRow).favg.isSome = true ↔
      (⟨1, 200, 236, 518510 / 1000, none, none⟩ : ReportRow).cvmin = 0) ∧
    ((⟨1, 200, 236, 518510 / 1000, none, none⟩ : ReportRow).gen <
        firstFeasibleIdx runNoRepair + 1 →
      (⟨1, 200, 236, 518510 / 1000, none, none⟩ : ReportRow).fopt = none ∧
      (⟨1, 200, 236, 518510 / 1000, none, none⟩ : ReportRow).favg = none) ∧
    (firstFeasibleIdx runNoRepair + 1 ≤
        (⟨1, 200, 236, 518510 / 1000, none, none⟩ : ReportRow).gen →
      (⟨1, 200, 236, 518510 / 1000, none, none⟩ : ReportRow).fopt.isSome = true ∧
      (⟨1, 200, 236, 518510 / 1000, none, none⟩ : ReportRow).favg.isSome = true) :=
  reporter_placeholder_until_first_feasible ⟨1, 200, 236, 518510 / 1000, none, none⟩
    (by rw [runNoRepair]; exact List.mem_cons_self _ _)

/-- Claim C10: for every key vector of the length of the target list,
the evaluated objective equals the negated count of positions where the
decoded phenotype agrees with the target sort order, lies between `-n`
and `0`, and equals `-n` exactly when the phenotype equals the target
sort order. -/
theorem myProblemF_negated_match_count (target x : List ℚ)
    (hx : x.length = target.length) :
    myProblemF (argsortQ target) x
        = -(countMatches (argsortQ target) (argsortQ x) : ℤ) ∧
    -(target.length : ℤ) ≤ myProblemF (argsortQ target) x ∧
    myProblemF (argsortQ target) x ≤ 0 ∧
    (myProblemF (argsortQ target) x = -(target.length : ℤ) ↔
      argsortQ x = argsortQ target) := by
  have hlc : (argsortQ target).length = target.length := argsortQ_length target
  have hlx : (argsortQ x).length = x.length := argsortQ_length x
  have hle := countMatches_le (argsortQ target) (argsortQ x)
  have hiff := countMatches_eq_length_iff (argsortQ target) (argsortQ x)
    (by rw [hlc, hlx, hx])
  refine ⟨rfl, ?_, ?_, ?_⟩
  · rw [myProblemF]
    omega
  · rw [myProblemF]
    omega
  · rw [myProblemF]
    constructor
    · intro h
      have hc : countMatches (argsortQ target) (argsortQ x) = (argsortQ target).length := by
        omega
      exact (hiff.mp hc).symm
    · intro h
      have hc : countMatches (argsortQ target) (argsortQ x) = (argsortQ target).length :=
        hiff.mpr h.symm
      omega

/-- Witness for C10 at the concrete target `[2, 1]` and key vector
`[5, 3]`, both decoding to the phenotype `[1, 0]`. -/
theorem myProblemF_negated_match_count_witness :
    myProblemF (argsortQ [2, 1]) [5, 3]
        = -(countMatches (argsortQ [2, 1]) (argsortQ [5, 3]) : ℤ) ∧
    -(([2, 1] : List ℚ).length : ℤ) ≤ myProblemF (argsortQ [2, 1]) [5, 3] ∧
    myProblemF (argsortQ [2, 1]) [5, 3] ≤ 0 ∧
    (myProblemF (argsortQ [2, 1]) [5, 3] = -(([2, 1] : List ℚ).length : ℤ) ↔
      argsortQ [5, 3] = argsortQ [2, 1]) :=
  myProblemF_negated_match_count [2, 1] [5, 3] rfl

end Pymoo
